import Mathlib

/-!
Verification development for the DCF-Valuation-Stock repository.

Part 1 embeds the TypeScript watchlist code under `src/my-app` and the
`App` component (`src/unnamed/part_000`): the `Ticker` record, the
`calcUpside` / `statusFromUpside` functions of `TableRow.tsx`, and the
`saveTicker` handler.

Part 2 models the signal-detection pipeline (indicator engine, structure
detector, scoring engine) described by the repository README and spec;
its implementation file `fvg_liquidity_sweep.py` is not part of the
source tree, so those definitions are modelled from the spec, as their
doc comments state.  Numeric values are embedded as rationals.
-/

/-- The `Ticker` record of `src/my-app/src/types.ts`.  Optional fields
(`fairValue?: number`, `priceClose?: number`, ...) are embedded as `Option`;
`null`/`undefined` both map to `none`. -/
structure Ticker where
  symbol : String
  name : String
  fairValue : Option ℚ
  fairAsOf : Option String
  priceClose : Option ℚ
  priceAsOf : Option String
  earningsDate : Option String
  notes : Option String
  edited : Option Bool
deriving DecidableEq, Repr

/-- The `Status` union type of `types.ts`. -/
inductive Status where
  | UNDERVALUED
  | OVERVALUED
  | FAIR
  | INCOMPLETE
deriving DecidableEq, Repr

/-- `calcUpside` from `TableRow.tsx`:
`if (t.fairValue == null || t.priceClose == null || t.priceClose === 0) return null;`
`return ((t.fairValue - t.priceClose) / t.priceClose) * 100;` -/
def calcUpside (t : Ticker) : Option ℚ :=
  match t.fairValue, t.priceClose with
  | some fv, some pc => if pc = 0 then none else some ((fv - pc) / pc * 100)
  | _, _ => none

/-- `statusFromUpside` from `TableRow.tsx`: `INCOMPLETE` when fair value or
price is missing, otherwise classify the non-null upside by the 20 / -10
thresholds, falling back to `INCOMPLETE` when the upside is null. -/
def statusFromUpside (t : Ticker) (up : Option ℚ) : Status :=
  if t.fairValue = none ∨ t.priceClose = none then .INCOMPLETE
  else
    match up with
    | some u => if 20 ≤ u then .UNDERVALUED else if u ≤ -10 then .OVERVALUED else .FAIR
    | none => .INCOMPLETE

/-- The `{ ...t, edited: true }` spread used by `saveTicker` in `App`. -/
def setEdited (t : Ticker) : Ticker := { t with edited := some true }

/-- `saveTicker` from the `App` component (`src/unnamed/part_000`):
`const list = [...tickers]; if (editingIndex === null) list.push({...t, edited: true});`
`else list[editingIndex] = {...t, edited: true}; setTickers(list);`
embedded as a pure function from the old list and `editingIndex` to the new list. -/
def saveTicker (tickers : List Ticker) (editingIndex : Option Nat) (t : Ticker) :
    List Ticker :=
  match editingIndex with
  | none => tickers ++ [setEdited t]
  | some i => tickers.set i (setEdited t)

/-- The MCD entry of `initialData` in the `App` component. -/
def mcdTicker : Ticker :=
  { symbol := "MCD", name := "McDonalds Corporation", fairValue := some 150
    fairAsOf := some "2025-07-01", priceClose := some 120
    priceAsOf := some "2025-08-10", earningsDate := some "2025-10-25"
    notes := some "", edited := some false }

/-- The AAPL entry of `initialData` in the `App` component. -/
def aaplTicker : Ticker :=
  { symbol := "AAPL", name := "Apple Inc.", fairValue := some 180
    fairAsOf := some "2025-07-02", priceClose := some 195
    priceAsOf := some "2025-08-10", earningsDate := some "2025-10-30"
    notes := some "", edited := some false }

/-- C8: `calcUpside t` is `none` exactly when `fairValue` is missing,
`priceClose` is missing, or `priceClose` is `0`; otherwise it returns
`((fairValue - priceClose) / priceClose) * 100`, so the division is never
performed with a zero denominator. -/
theorem calcUpside_spec (t : Ticker) :
    (calcUpside t = none ↔
      t.fairValue = none ∨ t.priceClose = none ∨ t.priceClose = some 0) ∧
    (∀ fv pc : ℚ, t.fairValue = some fv → t.priceClose = some pc → pc ≠ 0 →
      calcUpside t = some ((fv - pc) / pc * 100)) := by
  refine ⟨?_, ?_⟩
  · rcases hf : t.fairValue with _ | fv
    · simp [calcUpside, hf]
    rcases hp : t.priceClose with _ | pc
    · simp [calcUpside, hf, hp]
    by_cases hz : pc = 0
    · subst hz; simp [calcUpside, hf, hp]
    · simp [calcUpside, hf, hp, hz]
  · intro fv pc hf hp hpc
    simp [calcUpside, hf, hp, hpc]

/-- Witness for C8 at the MCD sample ticker: fair value 150, price 120,
upside 25%. -/
theorem calcUpside_spec_witness : calcUpside mcdTicker = some 25 := by
  have h := (calcUpside_spec mcdTicker).2 150 120 rfl rfl (by norm_num)
  rw [h]; norm_num

/-- C9: with `up = calcUpside t`, `statusFromUpside` classifies totally:
`INCOMPLETE` exactly when fair value or price is missing or the price is 0,
otherwise `UNDERVALUED` for upside ≥ 20, `OVERVALUED` for upside ≤ -10, and
`FAIR` strictly in between. -/
theorem statusFromUpside_spec (t : Ticker) :
    (statusFromUpside t (calcUpside t) = .INCOMPLETE ↔
      t.fairValue = none ∨ t.priceClose = none ∨ t.priceClose = some 0) ∧
    (∀ u : ℚ, calcUpside t = some u →
      ((20 ≤ u → statusFromUpside t (calcUpside t) = .UNDERVALUED) ∧
       (u ≤ -10 → statusFromUpside t (calcUpside t) = .OVERVALUED) ∧
       (-10 < u → u < 20 → statusFromUpside t (calcUpside t) = .FAIR))) := by
  refine ⟨?_, ?_⟩
  · rcases hf : t.fairValue with _ | fv
    · simp [statusFromUpside, hf]
    rcases hp : t.priceClose with _ | pc
    · simp [statusFromUpside, hp]
    by_cases hz : pc = 0
    · subst hz
      simp [statusFromUpside, calcUpside, hf, hp]
    · constructor
      · intro h
        exfalso
        simp only [statusFromUpside, calcUpside, hf, hp, hz] at h
        simp only [if_neg hz, Option.some.injEq, reduceCtorEq, false_or, if_false] at h
        split_ifs at h
      · intro h
        rcases h with h | h | h
        · exact absurd h (by simp)
        · exact absurd h (by simp)
        · exact absurd (Option.some.inj h) hz
  · intro u hu
    rcases hf : t.fairValue with _ | fv
    · simp [calcUpside, hf] at hu
    rcases hp : t.priceClose with _ | pc
    · simp [calcUpside, hf, hp] at hu
    have hcond : ¬ (t.fairValue = none ∨ t.priceClose = none) := by simp [hf, hp]
    rw [hu]
    refine ⟨fun h20 => ?_, fun h10 => ?_, fun hl hr => ?_⟩
    · simp [statusFromUpside, hcond, h20]
    · have h1 : ¬ (20 : ℚ) ≤ u := by linarith
      simp [statusFromUpside, hcond, h1, h10]
    · have h1 : ¬ (20 : ℚ) ≤ u := by linarith
      have h2 : ¬ u ≤ (-10 : ℚ) := by linarith
      simp [statusFromUpside, hcond, h1, h2]

/-- Witness for C9 at the MCD sample ticker: upside 25 ≥ 20, status
UNDERVALUED. -/
theorem statusFromUpside_spec_witness :
    statusFromUpside mcdTicker (calcUpside mcdTicker) = .UNDERVALUED := by
  have hu : calcUpside mcdTicker = some 25 := by norm_num [calcUpside, mcdTicker]
  exact ((statusFromUpside_spec mcdTicker).2 25 hu).1 (by norm_num)

/-- C10: `saveTicker` always stores the ticker with `edited = true`; with
`editingIndex = none` it appends (length grows by one, pre-existing entries
unchanged, the new entry sits at the end), and with a valid `editingIndex = some i`
it replaces position `i` in place (length unchanged, every other entry
unchanged). -/
theorem saveTicker_spec (tickers : List Ticker) (t : Ticker) :
    ((setEdited t).edited = some true) ∧
    ((saveTicker tickers none t).length = tickers.length + 1) ∧
    (∀ k, k < tickers.length → (saveTicker tickers none t)[k]? = tickers[k]?) ∧
    ((saveTicker tickers none t)[tickers.length]? = some (setEdited t)) ∧
    (∀ i, i < tickers.length →
      (saveTicker tickers (some i) t).length = tickers.length ∧
      (saveTicker tickers (some i) t)[i]? = some (setEdited t) ∧
      (∀ k, k ≠ i → (saveTicker tickers (some i) t)[k]? = tickers[k]?)) := by
  refine ⟨rfl, ?_, ?_, ?_, ?_⟩
  · simp [saveTicker]
  · intro k hk
    simp [saveTicker, List.getElem?_append_left hk]
  · simp [saveTicker]
  · intro i hi
    refine ⟨by simp [saveTicker], ?_, ?_⟩
    · simp [saveTicker, List.getElem?_set_eq_of_lt _ hi]
    · intro k hk
      simp [saveTicker, List.getElem?_set_ne (Ne.symm hk)]

/-- Witness for C10: replacing index 0 of the two-element sample list with the
AAPL ticker keeps length 2, marks the stored entry edited, and leaves index 1
untouched. -/
theorem saveTicker_spec_witness :
    (saveTicker [mcdTicker, aaplTicker] (some 0) aaplTicker).length = 2 ∧
    (saveTicker [mcdTicker, aaplTicker] (some 0) aaplTicker)[0]? =
      some (setEdited aaplTicker) ∧
    (saveTicker [mcdTicker, aaplTicker] (some 0) aaplTicker)[1]? =
      some aaplTicker := by
  have h := (saveTicker_spec [mcdTicker, aaplTicker] aaplTicker).2.2.2.2 0 (by simp)
  exact ⟨h.1, h.2.1, by rw [h.2.2 1 (by norm_num)]; rfl⟩

/-- Modelled from the spec: the `Bar` record of §3 (open/high/low/close/volume).
The pipeline implementation file `fvg_liquidity_sweep.py` named by the README is
missing from the source tree, so the signal-detection core is modelled from the
spec.  `opn` embeds the `open` field (a Lean keyword); prices and volume are
rationals. -/
structure Bar where
  opn : ℚ
  high : ℚ
  low : ℚ
  close : ℚ
  volume : ℚ
deriving DecidableEq, Repr, Inhabited

/-- Modelled from the spec: (§4.1) true range per bar is
`max(high-low, |high-prevClose|, |low-prevClose|)`; the first bar has no
previous close, so its true range is `high - low`. -/
def trueRange (prevClose : Option ℚ) (b : Bar) : ℚ :=
  match prevClose with
  | none => b.high - b.low
  | some pc => max (b.high - b.low) (max |b.high - pc| |b.low - pc|)

/-- Modelled from the spec: the per-bar true-range sequence, threading the
previous close forward. -/
def trSeq : Option ℚ → List Bar → List ℚ
  | _, [] => []
  | pc, b :: rest => trueRange pc b :: trSeq (some b.close) rest

/-- Modelled from the spec: (§4.1, §8) `atr14` at index `i` is undefined before
index 14 (warmup) and otherwise the simple rolling average of the true range
over the last 14 bars (indices `i-13 .. i`). -/
def atrAt (bars : List Bar) (i : Nat) : Option ℚ :=
  if i < 14 ∨ bars.length ≤ i then none
  else some ((((trSeq none bars).drop (i - 13)).take 14).sum / 14)

/-- Modelled from the spec: (§4.1) the 20 volumes strictly preceding bar `i`. -/
def volumeWindow (bars : List Bar) (i : Nat) : List ℚ :=
  ((bars.map Bar.volume).drop (i - 20)).take 20

/-- Modelled from the spec: (§4.1) simple average volume of the preceding 20
bars, exclusive of the current bar. -/
def avgVol (bars : List Bar) (i : Nat) : ℚ := (volumeWindow bars i).sum / 20

/-- Modelled from the spec: (§4.1) `rvol20` is undefined for the first 20 bars,
and an explicit undefined value (never a crash or a silent zero) when the
average volume is zero; otherwise current volume divided by the 20-bar average. -/
def rvolAt (bars : List Bar) (i : Nat) : Option ℚ :=
  if i < 20 ∨ bars.length ≤ i then none
  else if avgVol bars i = 0 then none
  else some ((bars.getD i default).volume / avgVol bars i)

/-- Modelled from the spec: (§3) an `AnnotatedBar` is a bar plus the nullable
computed indicator fields needed by the claims (`atr14`, `rvol20`). -/
structure AnnotatedBar where
  bar : Bar
  atr14 : Option ℚ
  rvol20 : Option ℚ
deriving DecidableEq, Repr

/-- Modelled from the spec: (§4.1 contract) the Indicator Engine maps an
ordered Bar sequence to the same-length AnnotatedBar sequence. -/
def annotate (bars : List Bar) : List AnnotatedBar :=
  (List.range bars.length).map fun i =>
    { bar := bars.getD i default, atr14 := atrAt bars i, rvol20 := rvolAt bars i }

theorem trSeq_length (pc : Option ℚ) (bars : List Bar) :
    (trSeq pc bars).length = bars.length := by
  induction bars generalizing pc with
  | nil => rfl
  | cons b rest ih => simp [trSeq, ih]

theorem trueRange_some_nonneg (pc : ℚ) (b : Bar) : 0 ≤ trueRange (some pc) b :=
  le_trans (abs_nonneg (b.high - pc)) (le_trans (le_max_left _ _) (le_max_right _ _))

theorem trSeq_some_nonneg (pc : ℚ) (bars : List Bar) :
    ∀ x ∈ trSeq (some pc) bars, 0 ≤ x := by
  induction bars generalizing pc with
  | nil => simp [trSeq]
  | cons b rest ih =>
    intro x hx
    rcases List.mem_cons.mp hx with rfl | hx'
    · exact trueRange_some_nonneg pc b
    · exact ih b.close x hx'

theorem annotate_getElem (bars : List Bar) (i : Nat) (a : AnnotatedBar)
    (ha : (annotate bars)[i]? = some a) :
    i < bars.length ∧ a.atr14 = atrAt bars i ∧ a.rvol20 = rvolAt bars i := by
  unfold annotate at ha
  rw [List.getElem?_map] at ha
  by_cases h : i < bars.length
  · rw [List.getElem?_range h] at ha
    simp only [Option.map_some'] at ha
    obtain rfl := Option.some.inj ha
    exact ⟨h, rfl, rfl⟩
  · rw [List.getElem?_eq_none (by simpa using h)] at ha
    simp at ha

theorem atrAt_defined_nonneg (bars : List Bar) (i : Nat) (h14 : 14 ≤ i)
    (hlen : i < bars.length) : ∃ q, atrAt bars i = some q ∧ 0 ≤ q := by
  have hcond : ¬ (i < 14 ∨ bars.length ≤ i) := by omega
  have hval : atrAt bars i =
      some ((((trSeq none bars).drop (i - 13)).take 14).sum / 14) := by
    simp [atrAt, hcond]
  refine ⟨_, hval, div_nonneg (List.sum_nonneg ?_) (by norm_num)⟩
  intro x hx
  have hx1 : x ∈ (trSeq none bars).drop (i - 13) := List.mem_of_mem_take hx
  rcases bars with _ | ⟨b, rest⟩
  · simp at hlen
  · have h13 : i - 13 = (i - 14) + 1 := by omega
    rw [trSeq, h13, List.drop_succ_cons] at hx1
    exact trSeq_some_nonneg b.close rest x (List.mem_of_mem_drop hx1)

/-- A flat synthetic minute bar used as a concrete evaluation point. -/
def flatBar : Bar := { opn := 100, high := 101, low := 99, close := 100, volume := 50 }

/-- 24 flat bars: a concrete series long enough for both indicator warmups. -/
def demoSeries : List Bar := List.replicate 24 flatBar

/-- C4: for every `AnnotatedBar` the Indicator Engine produces, `atr14` is
undefined (`none`) at every index below 14 and a defined non-negative value
from index 14 onward, and the true-range sequence starts with `high - low`
for the first bar (which has no previous close). -/
theorem atr14_spec (bars : List Bar) (i : Nat) (a : AnnotatedBar)
    (ha : (annotate bars)[i]? = some a) :
    (i < 14 → a.atr14 = none) ∧
    (14 ≤ i → ∃ q, a.atr14 = some q ∧ 0 ≤ q) ∧
    (∀ b rest, bars = b :: rest →
      (trSeq none bars).head? = some (b.high - b.low)) := by
  obtain ⟨hlen, hatr, -⟩ := annotate_getElem bars i a ha
  refine ⟨fun h => ?_, fun h => ?_, fun b rest hbr => ?_⟩
  · rw [hatr]
    simp [atrAt, h]
  · rw [hatr]
    exact atrAt_defined_nonneg bars i h hlen
  · subst hbr
    simp [trSeq, trueRange]

/-- Witness for C4 on the 24-bar flat series: `atr14` is `none` at index 5 and
defined non-negative at index 14. -/
theorem atr14_spec_witness :
    (AnnotatedBar.mk flatBar (atrAt demoSeries 5) (rvolAt demoSeries 5)).atr14
        = none ∧
    ∃ q, (AnnotatedBar.mk flatBar (atrAt demoSeries 14)
        (rvolAt demoSeries 14)).atr14 = some q ∧ 0 ≤ q := by
  have h5 : (annotate demoSeries)[5]? =
      some ⟨flatBar, atrAt demoSeries 5, rvolAt demoSeries 5⟩ := by
    simp [annotate, demoSeries]
  have h14 : (annotate demoSeries)[14]? =
      some ⟨flatBar, atrAt demoSeries 14, rvolAt demoSeries 14⟩ := by
    simp [annotate, demoSeries]
  exact ⟨(atr14_spec demoSeries 5 _ h5).1 (by norm_num),
    (atr14_spec demoSeries 14 _ h14).2.1 (by norm_num)⟩

theorem volumeWindow_nonneg (bars : List Bar) (i : Nat)
    (hvol : ∀ b ∈ bars, 0 ≤ b.volume) : ∀ x ∈ volumeWindow bars i, 0 ≤ x := by
  intro x hx
  have hx1 : x ∈ bars.map Bar.volume :=
    List.mem_of_mem_drop (List.mem_of_mem_take hx)
  obtain ⟨b, hb, rfl⟩ := List.mem_map.mp hx1
  exact hvol b hb

/-- C5: for every `AnnotatedBar` the Indicator Engine produces with
non-negative input volumes, `rvol20` is undefined (`none`) before index 20, an
explicit `none` whenever the 20-bar average volume is zero (never a silently
substituted zero), and otherwise a defined non-negative value that is zero
exactly when the current bar's volume is zero. -/
theorem rvol20_spec (bars : List Bar) (i : Nat) (a : AnnotatedBar)
    (ha : (annotate bars)[i]? = some a)
    (hvol : ∀ b ∈ bars, 0 ≤ b.volume) :
    (i < 20 → a.rvol20 = none) ∧
    (avgVol bars i = 0 → a.rvol20 = none) ∧
    (20 ≤ i → avgVol bars i ≠ 0 →
      ∃ q, a.rvol20 = some q ∧ 0 ≤ q ∧
        (q = 0 ↔ (bars.getD i default).volume = 0)) := by
  obtain ⟨hlen, -, hrv⟩ := annotate_getElem bars i a ha
  have havg : 0 ≤ avgVol bars i :=
    div_nonneg (List.sum_nonneg (volumeWindow_nonneg bars i hvol)) (by norm_num)
  refine ⟨fun h => ?_, fun h => ?_, fun h20 hnz => ?_⟩
  · rw [hrv]
    simp [rvolAt, h]
  · rw [hrv]
    unfold rvolAt
    split_ifs <;> simp_all
  · have hcond : ¬ (i < 20 ∨ bars.length ≤ i) := by omega
    have hvi : 0 ≤ (bars.getD i default).volume :=
      hvol _ (by rw [List.getD_eq_getElem bars default hlen]; exact List.getElem_mem hlen)
    refine ⟨(bars.getD i default).volume / avgVol bars i, ?_, ?_, ?_⟩
    · rw [hrv]
      simp [rvolAt, hcond, hnz]
    · exact div_nonneg hvi havg
    · rw [div_eq_zero_iff]
      simp [hnz]

/-- Witness for C5 on the 24-bar flat series (all volumes 50): `rvol20` is
`none` at index 3 and defined at index 20 with value `50 / avg`, non-negative
and zero iff the current volume is zero. -/
theorem rvol20_spec_witness :
    (AnnotatedBar.mk flatBar (atrAt demoSeries 3) (rvolAt demoSeries 3)).rvol20
        = none ∧
    ∃ q, (AnnotatedBar.mk flatBar (atrAt demoSeries 20)
        (rvolAt demoSeries 20)).rvol20 = some q ∧ 0 ≤ q ∧
        (q = 0 ↔ (demoSeries.getD 20 default).volume = 0) := by
  have hv : ∀ b ∈ demoSeries, 0 ≤ b.volume := by decide
  have h3 : (annotate demoSeries)[3]? =
      some ⟨flatBar, atrAt demoSeries 3, rvolAt demoSeries 3⟩ := by
    simp [annotate, demoSeries]
  have h20 : (annotate demoSeries)[20]? =
      some ⟨flatBar, atrAt demoSeries 20, rvolAt demoSeries 20⟩ := by
    simp [annotate, demoSeries]
  have havg : avgVol demoSeries 20 ≠ 0 := by
    simp [avgVol, volumeWindow, demoSeries, flatBar]
    norm_num
  exact ⟨(rvol20_spec demoSeries 3 _ h3 hv).1 (by norm_num),
    (rvol20_spec demoSeries 20 _ h20 hv).2.2 (by norm_num) havg⟩

/-- Modelled from the spec: (§3) gap direction of a Fair Value Gap. -/
inductive GapDirection where
  | bullish
  | bearish
deriving DecidableEq, Repr

/-- Modelled from the spec: (§3) a Fair Value Gap with its direction, the gap
bounds fixed at formation, and the originating (middle) bar index. -/
structure FairValueGap where
  direction : GapDirection
  lower : ℚ
  upper : ℚ
  barIndex : Nat
deriving DecidableEq, Repr

/-- Modelled from the spec: (§4.2 FVG scan) at index `i` (1 ≤ i ≤ n-2), a
bullish gap exists when `low(bar[i+1]) > high(bar[i-1])` and a bearish gap when
`high(bar[i+1]) < low(bar[i-1])`; both comparisons are strict, and the bounds
are taken from the outer bars at formation. -/
def fvgAt (bars : List Bar) (i : Nat) : Option FairValueGap :=
  if 1 ≤ i ∧ i + 1 < bars.length then
    let a := bars.getD (i - 1) default
    let c := bars.getD (i + 1) default
    if a.high < c.low then some ⟨.bullish, a.high, c.low, i⟩
    else if c.high < a.low then some ⟨.bearish, c.high, a.low, i⟩
    else none
  else none

/-- Modelled from the spec: (§4.2) the ordered list of FVG candidates found by
scanning every index. -/
def detectFVGs (bars : List Bar) : List FairValueGap :=
  (List.range bars.length).filterMap (fvgAt bars)

/-- Modelled from the spec: (§9 design note) the two-state untouched/touched
machine with its single irreversible transition. -/
inductive TouchState where
  | untouched
  | touched
deriving DecidableEq, Repr

/-- Modelled from the spec: (§4.2 tie-break) a bar touches the gap when its
high/low range intersects the gap interval — wicks count, not just closes. -/
def touches (g : FairValueGap) (b : Bar) : Bool :=
  decide (b.low ≤ g.upper) && decide (g.lower ≤ b.high)

/-- Modelled from the spec: one step of the untouched-tracking state machine;
`touched` is absorbing. -/
def touchStep (g : FairValueGap) (s : TouchState) (b : Bar) : TouchState :=
  match s with
  | .touched => .touched
  | .untouched => if touches g b then .touched else .untouched

/-- Modelled from the spec: run the untouched-tracking machine over the bars
following formation. -/
def touchRun (g : FairValueGap) (bars : List Bar) : TouchState :=
  bars.foldl (touchStep g) .untouched

/-- Modelled from the spec: (§3 untouched status) the boolean `untouched` flag
after processing a bar sequence. -/
def untouchedAfter (g : FairValueGap) (bars : List Bar) : Bool :=
  match touchRun g bars with
  | .untouched => true
  | .touched => false

/-- Modelled from the spec: (§4.2, §7) validation outcome of an FVG —
`pending` is distinct from both `qualified` and `rejected`. -/
inductive Outcome where
  | qualified
  | rejected
  | pending
deriving DecidableEq, Repr

/-- Modelled from the spec: (§4.2 untouched validation) the bars walked after
formation (the gap forms at index `barIndex + 1`) up to the designated
entry-evaluation bar two bars later. -/
def forwardWindow (bars : List Bar) (g : FairValueGap) : List Bar :=
  (bars.drop (g.barIndex + 2)).take 2

/-- Modelled from the spec: (§4.2 edge cases) a gap formed within the final 2
bars of the series (formation index `barIndex + 1 ≥ length - 2`) cannot be
validated and is `pending`; otherwise it is `qualified` when still untouched
at the entry-evaluation bar and `rejected` when touched. -/
def outcomeOf (bars : List Bar) (g : FairValueGap) : Outcome :=
  if bars.length ≤ g.barIndex + 3 then .pending
  else if untouchedAfter g (forwardWindow bars g) then .qualified else .rejected

/-- Modelled from the spec: (§4.2 contract) every detected FVG is returned
tagged with its outcome — none is dropped. -/
def detectWithOutcome (bars : List Bar) : List (FairValueGap × Outcome) :=
  (detectFVGs bars).map fun g => (g, outcomeOf bars g)

/-- Modelled from the spec: the qualified candidates handed to setup
generation / scoring. -/
def setupCandidates (bars : List Bar) : List FairValueGap :=
  (detectFVGs bars).filter fun g => outcomeOf bars g == Outcome.qualified

theorem mem_detectFVGs (bars : List Bar) (g : FairValueGap)
    (hg : g ∈ detectFVGs bars) :
    1 ≤ g.barIndex ∧ g.barIndex + 1 < bars.length ∧
    ((g.direction = .bullish ∧
        g.lower = (bars.getD (g.barIndex - 1) default).high ∧
        g.upper = (bars.getD (g.barIndex + 1) default).low) ∨
     (g.direction = .bearish ∧
        g.lower = (bars.getD (g.barIndex + 1) default).high ∧
        g.upper = (bars.getD (g.barIndex - 1) default).low)) ∧
    g.lower < g.upper := by
  obtain ⟨i, -, hfi⟩ := List.mem_filterMap.mp hg
  simp only [fvgAt] at hfi
  split_ifs at hfi with h1 h2 h3
  · obtain rfl := Option.some.inj hfi
    exact ⟨h1.1, h1.2, Or.inl ⟨rfl, rfl, rfl⟩, h2⟩
  · obtain rfl := Option.some.inj hfi
    exact ⟨h1.1, h1.2, Or.inr ⟨rfl, rfl, rfl⟩, h3⟩

/-- C1: every FVG in the qualified output has strictly ordered gap bounds
(`lower < upper`); the bounds come from the strict three-bar gap condition
(bullish: `high(bar[i-1]) < low(bar[i+1])`, bearish symmetric), so a zero-width
or inverted gap never appears in qualified output. -/
theorem qualified_strict_gap (bars : List Bar) (g : FairValueGap)
    (hg : g ∈ setupCandidates bars) :
    g.lower < g.upper ∧
    (g.direction = .bullish →
      g.lower = (bars.getD (g.barIndex - 1) default).high ∧
      g.upper = (bars.getD (g.barIndex + 1) default).low) ∧
    (g.direction = .bearish →
      g.lower = (bars.getD (g.barIndex + 1) default).high ∧
      g.upper = (bars.getD (g.barIndex - 1) default).low) := by
  have hg' : g ∈ detectFVGs bars := List.mem_of_mem_filter hg
  obtain ⟨-, -, hdir, hlt⟩ := mem_detectFVGs bars g hg'
  refine ⟨hlt, fun hb => ?_, fun hb => ?_⟩
  · rcases hdir with ⟨-, h⟩ | ⟨hd, -⟩
    · exact h
    · rw [hb] at hd; cases hd
  · rcases hdir with ⟨hd, -⟩ | ⟨-, h⟩
    · rw [hb] at hd; cases hd
    · exact h

/-- Low flat bar (high 100) used before the synthetic gap. -/
def loBar : Bar := { opn := 99, high := 100, low := 98, close := 99, volume := 10 }

/-- Middle bar of the synthetic three-bar bullish gap. -/
def midBar : Bar := { opn := 100, high := 103, low := 99, close := 102, volume := 10 }

/-- Third bar of the synthetic gap: its low (102) clears `loBar`'s high (100). -/
def cBar : Bar := { opn := 102, high := 104, low := 102, close := 103, volume := 10 }

/-- Bars after the gap that stay above it (low 103 > gap upper 102). -/
def postBar : Bar := { opn := 104, high := 105, low := 103, close := 104, volume := 10 }

/-- A bar whose wick (low 101) re-enters the gap interval [100, 102]. -/
def touchBar : Bar := { opn := 102, high := 103, low := 101, close := 102, volume := 10 }

/-- 25 synthetic bars with one untouched bullish gap at index 10. -/
def gapSeries : List Bar :=
  List.replicate 10 loBar ++ [midBar, cBar] ++ List.replicate 13 postBar

/-- The bullish FVG formed at index 10 of `gapSeries`. -/
def demoGap : FairValueGap :=
  { direction := .bullish, lower := 100, upper := 102, barIndex := 10 }

/-- Witness for C1: the gap of `gapSeries` is in the qualified output, its
bounds are strictly ordered and equal the outer bars' high/low. -/
theorem qualified_strict_gap_witness :
    demoGap.lower < demoGap.upper ∧
    demoGap.lower = (gapSeries.getD (demoGap.barIndex - 1) default).high ∧
    demoGap.upper = (gapSeries.getD (demoGap.barIndex + 1) default).low := by
  have h := qualified_strict_gap gapSeries demoGap (by decide)
  exact ⟨h.1, h.2.1 rfl⟩

theorem touchRun_touched_absorb (g : FairValueGap) (l : List Bar) :
    l.foldl (touchStep g) .touched = .touched := by
  induction l with
  | nil => rfl
  | cons b rest ih => simpa [touchStep] using ih

theorem touchRun_append_touched (g : FairValueGap) (l₁ l₂ : List Bar)
    (h : touchRun g l₁ = .touched) : touchRun g (l₁ ++ l₂) = .touched := by
  unfold touchRun at h ⊢
  rw [List.foldl_append, h]
  exact touchRun_touched_absorb g l₂

theorem touchRun_of_mem_touches (g : FairValueGap) (l : List Bar) (b : Bar)
    (hb : b ∈ l) (ht : touches g b = true) : touchRun g l = .touched := by
  induction l with
  | nil => simp at hb
  | cons a rest ih =>
    rcases List.mem_cons.mp hb with rfl | hb'
    · unfold touchRun
      rw [List.foldl_cons]
      have hs : touchStep g .untouched b = .touched := by simp [touchStep, ht]
      rw [hs]
      exact touchRun_touched_absorb g rest
    · have hr := ih hb'
      unfold touchRun at hr ⊢
      rw [List.foldl_cons]
      cases hstep : touchStep g .untouched a with
      | untouched => rw [hstep] at *; exact hr
      | touched => exact touchRun_touched_absorb g rest

theorem untouchedAfter_eq_false (g : FairValueGap) (l : List Bar) :
    untouchedAfter g l = false ↔ touchRun g l = .touched := by
  unfold untouchedAfter
  cases h : touchRun g l <;> simp

/-- C2: the untouched flag makes a one-way, monotone transition: once a bar of
the post-formation sequence touches the gap interval (prefix of length `k`),
the flag is `false` and stays `false` for every longer prefix (length `m ≥ k`);
and a gap whose forward walk is touched is excluded from the qualified setup
candidates. -/
theorem untouched_one_way (g : FairValueGap) (bars : List Bar) (k m : Nat)
    (hkm : k ≤ m) :
    (untouchedAfter g (bars.take k) = false →
      untouchedAfter g (bars.take m) = false) ∧
    (∀ b ∈ bars.take k, touches g b = true →
      untouchedAfter g (bars.take m) = false) ∧
    (∀ series : List Bar, untouchedAfter g (forwardWindow series g) = false →
      g ∉ setupCandidates series) := by
  have hsplit : bars.take m = bars.take k ++ (bars.drop k).take (m - k) := by
    conv_lhs => rw [show m = k + (m - k) by omega]
    rw [List.take_add]
  refine ⟨fun h => ?_, fun b hb ht => ?_, fun series h hmem => ?_⟩
  · rw [untouchedAfter_eq_false] at h ⊢
    rw [hsplit]
    exact touchRun_append_touched g _ _ h
  · rw [untouchedAfter_eq_false, hsplit]
    exact touchRun_append_touched g _ _ (touchRun_of_mem_touches g _ b hb ht)
  · have hq := (List.mem_filter.mp hmem).2
    rw [beq_iff_eq] at hq
    unfold outcomeOf at hq
    split_ifs at hq with h1 h2
    rw [h] at h2
    cases h2

/-- 25 synthetic bars as `gapSeries` but bar 12's wick re-enters the gap. -/
def touchSeries : List Bar :=
  List.replicate 10 loBar ++ [midBar, cBar, touchBar] ++ List.replicate 12 postBar

/-- Witness for C2: the bar sequence `[touchBar, postBar, postBar]` touches the
demo gap at its first bar, so the flag is `false` at prefix length 3; and in
`touchSeries` (where bar 12 wicks into the gap) the demo gap is excluded from
the setup candidates. -/
theorem untouched_one_way_witness :
    untouchedAfter demoGap ([touchBar, postBar, postBar].take 3) = false ∧
    demoGap ∉ setupCandidates touchSeries := by
  have h := untouched_one_way demoGap [touchBar, postBar, postBar] 1 3 (by norm_num)
  exact ⟨h.2.1 touchBar (by decide) (by decide), h.2.2 touchSeries (by decide)⟩

/-- C6: an FVG formed within the final 2 bars of the series (formation index
`barIndex + 1 ≥ length - 2`, i.e. `length ≤ barIndex + 3`) gets outcome
`pending`, a value distinct from both `qualified` and `rejected`, and it is
still present (not dropped) in the tagged detector output. -/
theorem pending_distinct (bars : List Bar) (g : FairValueGap)
    (hg : g ∈ detectFVGs bars) (hlate : bars.length ≤ g.barIndex + 3) :
    outcomeOf bars g = .pending ∧
    (g, Outcome.pending) ∈ detectWithOutcome bars ∧
    Outcome.pending ≠ Outcome.qualified ∧
    Outcome.pending ≠ Outcome.rejected := by
  have ho : outcomeOf bars g = .pending := by
    unfold outcomeOf
    rw [if_pos hlate]
  refine ⟨ho, ?_, by decide, by decide⟩
  unfold detectWithOutcome
  rw [← ho]
  exact List.mem_map_of_mem _ hg

/-- A 4-bar series whose bullish gap forms at the final bar. -/
def lateSeries : List Bar := [loBar, loBar, midBar, cBar]

/-- The bullish FVG formed at index 2 of `lateSeries` (formation at bar 3,
the last bar). -/
def lateGap : FairValueGap :=
  { direction := .bullish, lower := 100, upper := 102, barIndex := 2 }

/-- Witness for C6: the gap formed at the end of `lateSeries` is reported as
`pending` and kept in the tagged output. -/
theorem pending_distinct_witness :
    outcomeOf lateSeries lateGap = .pending ∧
    (lateGap, Outcome.pending) ∈ detectWithOutcome lateSeries := by
  have h := pending_distinct lateSeries lateGap (by decide) (by norm_num [lateSeries, lateGap])
  exact ⟨h.1, h.2.1⟩

/-- Modelled from the spec: (§3 Setup, §4.3) the session tag of the entry bar. -/
inductive SessionTag where
  | premarket
  | am
  | lunch
  | pm
  | afterhours
deriving DecidableEq, Repr

/-- Modelled from the spec: (§6 configuration) the externally configured
component weights and the ideal ATR-size band. -/
structure ScoreWeights where
  cleanlinessW : ℚ
  sizeW : ℚ
  sessionW : ℚ
  atrIdealMin : ℚ
  atrIdealMax : ℚ
deriving DecidableEq, Repr

/-- Modelled from the spec: (§4.3 contract) a qualified FVG candidate with its
AnnotatedBar context — the three formation bars, the gap width in ATR units at
formation (null during warmup), and the entry bar's session tag. -/
structure Candidate where
  firstBar : Bar
  middleBar : Bar
  thirdBar : Bar
  sizeATR : Option ℚ
  session : SessionTag
deriving DecidableEq, Repr

/-- Modelled from the spec: (§4.3) clip to the declared 0-100 score range. -/
def clip0100 (x : ℚ) : ℚ := max 0 (min 100 x)

/-- Modelled from the spec: overlap length of two bars' high/low ranges,
used by the cleanliness component. -/
def overlapLen (x y : Bar) : ℚ := max 0 (min x.high y.high - max x.low y.low)

/-- Modelled from the spec: (§4.3 cleanliness) rewards a geometrically clean
three-candle structure, penalising overlap among the formation bars relative
to the structure's full span; clipped to [0, 100]. -/
def cleanlinessScore (cand : Candidate) : ℚ :=
  let span := max cand.firstBar.high (max cand.middleBar.high cand.thirdBar.high) -
    min cand.firstBar.low (min cand.middleBar.low cand.thirdBar.low)
  if span ≤ 0 then 100
  else
    clip0100 (100 * (1 - (overlapLen cand.firstBar cand.middleBar +
      overlapLen cand.middleBar cand.thirdBar) / (2 * span)))

/-- Modelled from the spec: (§4.3 size) full marks when the gap's ATR size lies
in the configured ideal band, penalised to 0 outside it; a null ATR size (§8
warmup scenario) contributes 0. -/
def sizeScore (w : ScoreWeights) (cand : Candidate) : ℚ :=
  match cand.sizeATR with
  | none => 0
  | some s => if w.atrIdealMin ≤ s ∧ s ≤ w.atrIdealMax then 100 else 0

/-- Modelled from the spec: (§4.3 session quality) AM/PM high-liquidity entries
score higher than pre-market/lunch/after-hours entries. -/
def sessionScore (cand : Candidate) : ℚ :=
  match cand.session with
  | .am => 100
  | .pm => 100
  | _ => 40

/-- Modelled from the spec: (§3 Setup) the scored result — composite score plus
the per-component subscores. -/
structure ScoredSetup where
  composite : ℚ
  cleanlinessPart : ℚ
  sizePart : ℚ
  sessionPart : ℚ
deriving DecidableEq, Repr

/-- Modelled from the spec: (§4.3) the combination is a weighted linear sum of
the components in a fixed order (cleanliness, size, session), normalised by the
weight total and clipped to the declared 0–100 range; a zero weight total
yields 0. -/
def scoreSetup (w : ScoreWeights) (cand : Candidate) : ScoredSetup :=
  let c := cleanlinessScore cand
  let s := sizeScore w cand
  let q := sessionScore cand
  let tot := w.cleanlinessW + w.sizeW + w.sessionW
  let raw := w.cleanlinessW * c + w.sizeW * s + w.sessionW * q
  { composite := if tot = 0 then 0 else clip0100 (raw / tot)
    cleanlinessPart := c
    sizePart := s
    sessionPart := q }

theorem clip0100_range (x : ℚ) : 0 ≤ clip0100 x ∧ clip0100 x ≤ 100 :=
  ⟨le_max_left 0 _, max_le (by norm_num) (min_le_left _ _)⟩

/-- C3: for every candidate and every configuration with non-negative weights,
the composite score lies in the closed interval [0, 100]. -/
theorem score_in_range (w : ScoreWeights) (cand : Candidate)
    (hc : 0 ≤ w.cleanlinessW) (hs : 0 ≤ w.sizeW) (hq : 0 ≤ w.sessionW) :
    0 ≤ (scoreSetup w cand).composite ∧ (scoreSetup w cand).composite ≤ 100 := by
  unfold scoreSetup
  dsimp only
  split_ifs with h
  · norm_num
  · exact clip0100_range _

/-- Demo candidate: the three formation bars of `gapSeries`, ATR size 1, AM
session. -/
def demoCandidate : Candidate :=
  { firstBar := loBar, middleBar := midBar, thirdBar := cBar
    sizeATR := some 1, session := .am }

/-- Demo weight configuration: unit non-negative weights, ideal band [1/2, 2]. -/
def demoWeights : ScoreWeights :=
  { cleanlinessW := 1, sizeW := 1, sessionW := 1
    atrIdealMin := 1/2, atrIdealMax := 2 }

/-- Witness for C3 at the demo candidate and unit weights. -/
theorem score_in_range_witness :
    0 ≤ (scoreSetup demoWeights demoCandidate).composite ∧
    (scoreSetup demoWeights demoCandidate).composite ≤ 100 :=
  score_in_range demoWeights demoCandidate (by norm_num [demoWeights])
    (by norm_num [demoWeights]) (by norm_num [demoWeights])

/-- C7: the Scoring Engine is deterministic — equal candidate inputs and equal
weight configurations yield an identical scored setup: the composite score and
every component subscore coincide, the component combination order being fixed
in `scoreSetup`. -/
theorem score_deterministic (w₁ w₂ : ScoreWeights) (c₁ c₂ : Candidate)
    (hw : w₁ = w₂) (hc : c₁ = c₂) :
    scoreSetup w₁ c₁ = scoreSetup w₂ c₂ ∧
    (scoreSetup w₁ c₁).composite = (scoreSetup w₂ c₂).composite ∧
    (scoreSetup w₁ c₁).cleanlinessPart = (scoreSetup w₂ c₂).cleanlinessPart ∧
    (scoreSetup w₁ c₁).sizePart = (scoreSetup w₂ c₂).sizePart ∧
    (scoreSetup w₁ c₁).sessionPart = (scoreSetup w₂ c₂).sessionPart := by
  subst hw
  subst hc
  exact ⟨rfl, rfl, rfl, rfl, rfl⟩

/-- Witness for C7: two runs at the demo candidate and demo weights produce the
identical scored setup. -/
theorem score_deterministic_witness :
    scoreSetup demoWeights demoCandidate = scoreSetup demoWeights demoCandidate :=
  (score_deterministic demoWeights demoWeights demoCandidate demoCandidate rfl rfl).1
